import Mathlib

/-!
Verification development for the sink scripting language core
(lexer / parser / bytecode generator / virtual machine, `src/src2/sink.c`).

The definitions below are shallow embeddings of the corresponding C
functions; machine doubles are modelled by the inductive `Dbl` that keeps
exactly the observations the embedded code performs on them (NaN test,
negative-zero bit pattern, value comparison), and exact rational values
stand in for finite doubles.  Machine integer arithmetic is modelled on
`Nat`/`Int` with explicit wrap-around where the C code relies on it.
-/

set_option maxRecDepth 4000

namespace Sink

/-! ## Numeric literal computation (lexer)

Embeds `numpart_info` / `numpart_new` / `numpart_calc`
(src/src2/sink.c lines 1981-2013).  Finite doubles are modelled as exact
rationals. -/

/-- The lexer's accumulated parts of a numeric literal (`numpart_info`). -/
structure numpart_info where
  sign : Int       -- value sign -1 or 1
  val : Rat        -- integer part
  base : Nat       -- number base 2, 8, 10, or 16
  frac : Rat       -- fractional part >= 0
  flen : Nat       -- number of fractional digits
  esign : Int      -- exponent sign -1 or 1
  eval : Nat       -- exponent value >= 0
deriving DecidableEq

/-- `numpart_new`: initial state of the numeric literal accumulator. -/
def numpart_new : numpart_info :=
  { sign := 1, val := 0, base := 10, frac := 0, flen := 0, esign := 1, eval := 0 }

/-- `numpart_calc`: computes the value of a lexed numeric literal. -/
def numpart_calc (info : numpart_info) : Rat :=
  let val := info.val
  let e : Rat := if info.eval > 0
    then ((if info.base = 10 then (10 : Rat) else 2) ^ (info.esign * (info.eval : Int)))
    else 1
  let val := if info.eval > 0 then val * e else val
  let val := if info.flen > 0
    then (val * (info.base : Rat) ^ info.flen + info.frac * e) / (info.base : Rat) ^ info.flen
    else val
  (info.sign : Rat) * val

/-! ## Parser expressions and the pipe operator

Embeds the expression constructors `expr_paren`, `expr_group`, `expr_cat`,
`expr_infix`, `expr_call` and the function `parser_infix`
(src/src2/sink.c lines 2900-3097 and 4052-4064).  File positions (`flp`)
carry no semantic content and are omitted.  Keyword/symbol tokens keep
only the constructors the embedded functions inspect. -/

/-- Operator keywords (`ks_enum`), restricted to those the embedded
constructors dispatch on; all others are collapsed into `other`. -/
inductive Ks where
  | pipe
  | comma
  | tilde
  | plus
  | minus
  | percent
  | star
  | slash
  | caret
  | other (tag : Nat)
deriving DecidableEq

/-- Expression AST (`expr_st`).  `num` carries an exact rational in place
of the C double; `names` carries an identifier list tag. -/
inductive Ex where
  | nil
  | num (n : Rat)
  | str (s : List Nat)
  | lst (ex : Option Ex)
  | names (ns : List (List Nat))
  | paren (ex : Ex)
  | group (g : List Ex)
  | cat (c : List Ex)
  | prefixop (k : Ks) (ex : Ex)
  | infixop (k : Ks) (left : Ex) (right : Ex)
  | call (cmd : Ex) (params : Ex)
  | index (obj : Ex) (key : Ex)
  | slice (obj : Ex) (start : Ex) (len : Ex)

/-- `expr_paren`: wraps in a paren node unless the operand is a numeric
literal, which is returned unchanged. -/
def expr_paren (ex : Ex) : Ex :=
  match ex with
  | .num n => .num n
  | ex => .paren ex

/-- `expr_group`: builds a comma group, flattening operands that are
already groups. -/
def expr_group (left right : Ex) : Ex :=
  let g := (match left with
    | .group g0 => g0
    | l => [l]) ++ (match right with
    | .group g0 => g0
    | r => [r])
  .group g

/-- Strip nested paren wrappers (the two `while` loops of `expr_cat`). -/
def ex_unparen : Ex → Ex
  | .paren ex => ex_unparen ex
  | ex => ex

/-- `expr_cat`: builds a concatenation, unwrapping parens, statically
concatenating adjacent string literals and adjacent list literals, and
flattening operands that are already concatenations. -/
def expr_cat (left right : Ex) : Ex :=
  let left := ex_unparen left
  let right := ex_unparen right
  match left, right with
  | .str s1, .str s2 => .str (s1 ++ s2)
  | .lst l1, .lst l2 =>
      (match l2 with
        | some r2 =>
            (match l1 with
              | some r1 => .lst (some (expr_group r1 r2))
              | none => .lst (some r2))
        | none => .lst l1)
  | left, right =>
      let c := (match left with
        | .cat c0 => c0
        | l => [l]) ++ (match right with
        | .cat c0 => c0
        | r => [r])
      .cat c

/-- Truncation of a rational toward zero (the C double-to-integer cast). -/
def qtrunc (q : Rat) : Int := q.num.tdiv (q.den : Int)

/-- The compile-time fold of `fmod` on numeric literals.  The C code uses
the C library `fmod` on doubles: `x - trunc(x / y) * y`, with the `y = 0`
case (NaN in C) modelled as 0. -/
def qfmod (x y : Rat) : Rat :=
  if y = 0 then 0 else x - (qtrunc (x / y) : Rat) * y

/-- The compile-time fold of `pow` on numeric literals.  The C code uses
the C library `pow` on doubles; the rational model keeps integral
exponents exact and is otherwise unspecified (returns 0). -/
def qpow (x y : Rat) : Rat :=
  if y.den = 1 ∧ 0 ≤ y.num then x ^ y.num.toNat else 0

/-- `expr_infix`: builds an infix node, constant-folding arithmetic on two
numeric literals, and turning `,` into a group and `~` into a cat. -/
def expr_infix' (k : Ks) (left right : Ex) : Ex :=
  match left, right with
  | .num n1, .num n2 =>
      (match k with
        | .plus => .num (n1 + n2)
        | .minus => .num (n1 - n2)
        | .percent => .num (qfmod n1 n2)
        | .star => .num (n1 * n2)
        | .slash => .num (n1 / n2)
        | .caret => .num (qpow n1 n2)
        | .comma => expr_group (.num n1) (.num n2)
        | .tilde => expr_cat (.num n1) (.num n2)
        | k => .infixop k (.num n1) (.num n2))
  | left, right =>
      (match k with
        | .comma => expr_group left right
        | .tilde => expr_cat left right
        | k => .infixop k left right)

/-- `expr_call`: builds a call node. -/
def expr_call (cmd params : Ex) : Ex := .call cmd params

/-- `parser_infix`: combines an infix operator with its two operands.
`|` is treated as function application; a pipe whose right operand is
neither a call nor a name is the parse error "Invalid pipe". -/
def parser_infix' (k : Ks) (left right : Ex) : Except String Ex :=
  if k = .pipe then
    match right with
    | .call cmd params => .ok (.call cmd (expr_infix' .comma (expr_paren left) params))
    | .names ns => .ok (expr_call (.names ns) (expr_paren left))
    | _ => .error "Invalid pipe"
  else .ok (expr_infix' k left right)

/-- The argument list denoted by a call's `params` expression: a group
node lists its members, any other expression is a single argument. -/
def argsOf (params : Ex) : List Ex :=
  match params with
  | .group g => g
  | p => [p]

/-! ## Machine doubles

A sink value cell holds either a NaN-boxed tag or a genuine IEEE double.
`Dbl` models a double by the observations the embedded code performs on
it: the canonical NaN (all sink NaNs collapse to the one canonical
pattern), the two infinities, the negative-zero bit pattern, and finite
values as exact rationals (`fin 0` is positive zero). -/

/-- A machine double as observed by the embedded code. -/
inductive Dbl where
  | nan
  | inf (neg : Bool)
  | negZero
  | fin (q : Rat)
deriving DecidableEq

/-- `sink_num_isnan`: NaN test (mask test on the canonical pattern). -/
def Dbl.isnan : Dbl → Bool
  | .nan => true
  | _ => false

/-- The numeric value read through `.f` for comparison purposes;
NaN never reaches a `<` comparison in the embedded code. -/
def dlt (x y : Dbl) : Bool :=
  match x, y with
  | .inf n1, .inf n2 => n1 && !n2
  | .inf n1, _ => n1
  | _, .inf n2 => !n2
  | .negZero, .negZero => false
  | .negZero, .fin q => 0 < q
  | .fin q, .negZero => q < 0
  | .fin p, .fin q => p < q
  | .nan, _ => false
  | _, .nan => false

/-- The C double-to-int cast `(int)Y.f`, truncation toward zero.  The
NaN / infinity cases are undefined behavior in C and modelled as 0. -/
def dtoint : Dbl → Int
  | .fin q => qtrunc q
  | _ => 0

/-! ## Heap values and lists

Runtime values (`sink_val`) with lists as indices into the list pool, and
the list pool itself as the association of each index with its element
vector.  Strings carry their bytes inline: string objects are immutable
and none of the embedded operations observes string identity. -/

/-- A runtime value: nil, number, string (bytes inline), or a list given
by its index into the list pool. -/
inductive HV where
  | nil
  | num (d : Dbl)
  | str (s : List Nat)
  | list (idx : Nat)
deriving DecidableEq

/-- The list pool: element vector of each allocated index. -/
def Heap := List (List HV)

/-- The element vector of list index `i` (`var_castlist`). -/
def elems (h : Heap) (i : Nat) : List HV := List.getD h i []

/-- `opi_list_pushnils`: extend a list with nils so its length becomes
`totalsize`; no effect when the list is already at least that long
(src/src2/sink.c lines 11875-11884). -/
def opi_list_pushnils (ls : List HV) (totalsize : Int) : List HV :=
  if (ls.length : Int) ≥ totalsize then ls
  else ls ++ List.replicate (totalsize - (ls.length : Int)).toNat .nil

/-- The list-level effect of the `OP_SETAT` opcode after its two type
checks: adjust a negative index by the length, extend with nils, and
store when the adjusted index is in range
(src/src2/sink.c lines 13694-13709). -/
def op_setat (ls : List HV) (y : Int) (v : HV) : List HV :=
  let a := if y < 0 then y + (ls.length : Int) else y
  let ls2 := opi_list_pushnils ls (a + 1)
  if 0 ≤ a ∧ a < (ls2.length : Int) then ls2.set a.toNat v else ls2

/-- The `OP_SETAT` opcode case itself: type-checks the target and the
index and mutates the list object in the pool
(src/src2/sink.c lines 13694-13709). -/
def op_setat_h (h : Heap) (x y v : HV) : Except String Heap :=
  match x with
  | .list li =>
      (match y with
        | .num d => .ok (List.set h li (op_setat (elems h li) (dtoint d) v))
        | _ => .error "Expecting index to be number")
  | _ => .error "Expecting list when setting index"

/-! ## Pool allocation bitmaps

Embeds `bmp_alloc` and `bmp_reserve` (src/src2/sink.c lines 9213-9259).
The bitmap is a list of 64-bit words (naturals below `2 ^ 64`); `ffz` is
the `ffsll(~w) - 1` bit scan for the lowest clear bit. -/

/-- Lowest zero bit of a natural number (`ffsll(~w) - 1`). -/
def ffz (w : Nat) : Nat :=
  if w % 2 = 0 then 0 else 1 + ffz (w / 2)
decreasing_by
  have hw : w % 2 = 1 := Nat.mod_two_eq_zero_or_one w |>.resolve_left (by assumption)
  have : 0 < w := by omega
  exact Nat.div_lt_self this (by norm_num)

/-- Read bit `i` of a word-list bitmap. -/
def bitGet (words : List Nat) (i : Nat) : Bool :=
  Nat.testBit (List.getD words (i / 64) 0) (i % 64)

/-- `bmp_alloc`: search for the first clear bit, set it, and return its
position together with the updated bitmap; `none` when every bit of the
`count`-bit map is set (the loop runs out of `count`).  Words that are
all ones are skipped whole.  Running past the end of the word list is
out-of-bounds in C and modelled as `none`; the callers keep
`count = 64 * length`. -/
def bmp_alloc : List Nat → Int → Option (Nat × List Nat)
  | [], _ => none
  | w :: ws, count =>
    if count ≤ 0 then none
    else if w = 2 ^ 64 - 1 then
      match bmp_alloc ws (count - 64) with
      | some (i, ws2) => some (64 + i, w :: ws2)
      | none => none
    else
      some (ffz w, (w ||| 2 ^ ffz w) :: ws)

/-- An object pool: dense object table, bit count, allocation bitmap and
reachability bitmap (`size` counts slots; the bitmaps hold `size / 64`
words). -/
structure Pool (α : Type) where
  tbl : List α
  size : Nat
  aloc : List Nat
  ref : List Nat

/-- Set bit 0 of the word at position `k` (`(*aloc)[new_count / 128] |= 1`). -/
def setWordBit0 (ws : List Nat) (k : Nat) : List Nat :=
  List.set ws k (List.getD ws k 0 ||| 1)

/-- `bmp_reserve`: allocate a slot from the pool, doubling the pool when
the bitmap is full.  The doubled half of the object table is
uninitialized in C and modelled by padding with `pad`; `none` models the
`exit(1)` on the size cap.  (src/src2/sink.c lines 9241-9259.) -/
def bmp_reserve {α : Type} (p : Pool α) (pad : α) : Option (Nat × Pool α) :=
  match bmp_alloc p.aloc (p.size : Int) with
  | some (i, aloc2) => some (i, { p with aloc := aloc2 })
  | none =>
    if p.size ≥ 0x3FFFFFFF then none
    else
      let new_count := p.size * 2
      let tbl2 := p.tbl ++ List.replicate (new_count - p.tbl.length) pad
      let aloc2 := p.aloc ++ List.replicate (p.size / 64) 0
      let ref2 := p.ref ++ List.replicate (p.size / 64) 0
      let aloc3 := setWordBit0 aloc2 (new_count / 128)
      some (new_count / 2,
        { tbl := tbl2, size := new_count, aloc := aloc3, ref := ref2 })

/-! ## Tick budget and timeout

Embeds the bookkeeping run after every opcode in `context_run`
(src/src2/sink.c lines 14753-14765), the budget effect of `context_gc`
(lines 9593-9602 with `context_gcleft`, lines 9574-9591), and the
timeout entry check (lines 13377-13380).  The per-opcode work itself is
abstracted: the program is a sequence of `n` instructions, executing the
instruction at `pc` advances `pc` by one, and the ghost field `log`
records the instructions executed. -/

/-- `SINK_GC_TICKS` (src/tgt2/src2/sink.h lines 45-46). -/
def SINK_GC_TICKS : Int := 100

/-- GC levels (`sink_gc_level`). -/
inductive GcLevel where
  | nogc
  | default
  | lowmem
deriving DecidableEq

/-- Execution state restricted to the fields the budget logic touches,
plus the ghost log of executed instruction indices. -/
structure RunSt where
  pc : Nat
  gcLevel : GcLevel
  gcLeft : Int
  timeout : Int
  timeoutLeft : Int
  log : List Nat

/-- `context_gcleft` with `set = true`: reset the GC countdown. -/
def context_gcleft_set (lvl : GcLevel) (old : Int) : Int :=
  match lvl with
  | .default => 10000
  | .lowmem => 1000
  | .nogc => old

/-- The budget effect of `context_gc`: reset the GC countdown and deduct
the GC tick cost from the timeout budget, stopping at zero. -/
def context_gc_budget (st : RunSt) : RunSt :=
  let st := { st with gcLeft := context_gcleft_set st.gcLevel st.gcLeft }
  if st.timeoutLeft ≤ SINK_GC_TICKS then { st with timeoutLeft := 0 }
  else { st with timeoutLeft := st.timeoutLeft - SINK_GC_TICKS }

/-- The per-opcode bookkeeping at the bottom of the dispatch loop: GC
countdown and collection, then the timeout decrement; `true` signals a
`SINK_RUN_TIMEOUT` return with the budget already reset. -/
def run_tick (st : RunSt) : RunSt × Bool :=
  let st := if st.gcLevel ≠ .nogc then
      let st := { st with gcLeft := st.gcLeft - 1 }
      if st.gcLeft ≤ 0 then context_gc_budget st else st
    else st
  if st.timeout > 0 then
    let st := { st with timeoutLeft := st.timeoutLeft - 1 }
    if st.timeoutLeft ≤ 0 then ({ st with timeoutLeft := st.timeout }, true)
    else (st, false)
  else (st, false)

/-- Result of one `run` call. -/
inductive RunStatus where
  | timeout
  | done
  | more
deriving DecidableEq

/-- The dispatch loop `while (ctx->pc < ops->size)` over an abstract
program of `n` instructions: execute the instruction at `pc`, log it,
then run the budget bookkeeping.  `fuel` bounds the iterations; `.more`
is returned only on fuel exhaustion, which the top-level entry rules
out. -/
def run_loop (n : Nat) : Nat → RunSt → RunSt × RunStatus
  | fuel, st =>
    if st.pc < n then
      match fuel with
      | 0 => (st, .more)
      | fuel + 1 =>
        let st1 := { st with pc := st.pc + 1, log := st.log ++ [st.pc] }
        let p := run_tick st1
        if p.2 then (p.1, .timeout) else run_loop n fuel p.1
    else (st, .done)

/-- One `context_run` call: the timeout entry check followed by the
dispatch loop. -/
def context_run (n : Nat) (st : RunSt) : RunSt × RunStatus :=
  if st.timeout > 0 ∧ st.timeoutLeft ≤ 0 then
    ({ st with timeoutLeft := st.timeout }, .timeout)
  else run_loop n n st

/-! ## JSON pickle

Embeds `isSpace` / `isNum` / `isHex` / `toNibble` (src/src2/sink.c lines
1913-1951), `numtostr` (lines 12232-12239), `pk_isjson` (lines
12241-12439), `pk_tojson` (lines 12441-12563) and `opi_pickle_json`
(lines 12567-12583).  Bytes are naturals below 256.  The decimal
rendering `snprintf("%.16g")` of a finite double is not reproduced bit
for bit: it is a parameter `ren`; the special values render as the C
library prints them ("nan", "inf", "-inf", "-0"). -/

/-- `isSpace` on a byte. -/
def isSpace (b : Nat) : Bool := b = 32 || b = 10 || b = 13 || b = 9

/-- `isNum` on a byte. -/
def isNum (b : Nat) : Bool := 48 ≤ b && b ≤ 57

/-- `isHex` on a byte. -/
def isHex (b : Nat) : Bool :=
  isNum b || (97 ≤ b && b ≤ 102) || (65 ≤ b && b ≤ 70)

/-- `toNibble`: hex digit character of a nibble. -/
def toNibble (n : Nat) : Nat :=
  if n ≤ 9 then 48 + n else if n < 16 then 65 + (n - 10) else 48

/-- `numtostr`: render a double, normalizing "-0" to "0"; `ren` stands in
for the C library rendering of a finite double. -/
def numtostr (ren : Rat → List Nat) (d : Dbl) : List Nat :=
  let raw : List Nat := match d with
    | .nan => [110, 97, 110]
    | .inf false => [105, 110, 102]
    | .inf true => [45, 105, 110, 102]
    | .negZero => [45, 48]
    | .fin q => ren q
  if raw = [45, 48] then [48] else raw

/-- States of the `pk_isjson` validator. -/
inductive Pkv where
  | START | NULL1 | NULL2 | NULL3
  | NUM_0 | NUM_NEG | NUM_INT | NUM_FRAC | NUM_FRACE | NUM_FRACE2 | NUM_EXP
  | STR | STR_ESC | STR_U1 | STR_U2 | STR_U3 | STR_U4
  | ARRAY | ENDVAL
deriving DecidableEq

/-- The `pk_isjson` character loop.  `bs` is the unread tail; the
lookahead `nb` is the next byte or 0 at the end of the input. -/
def pk_isjson_go : Pkv → Nat → List Nat → Bool
  | state, _, [] => state = .ENDVAL
  | state, arrays, b :: rest =>
    let nb := rest.headD 0
    match state with
    | .START =>
        if b = 110 then
          (if nb ≠ 117 then false else pk_isjson_go .NULL1 arrays rest)
        else if b = 48 then
          (if nb = 46 || nb = 101 || nb = 69 then pk_isjson_go .NUM_0 arrays rest
           else pk_isjson_go .ENDVAL arrays rest)
        else if b = 45 then pk_isjson_go .NUM_NEG arrays rest
        else if isNum b then
          (if isNum nb then pk_isjson_go .NUM_INT arrays rest
           else if nb = 46 || nb = 101 || nb = 69 then pk_isjson_go .NUM_0 arrays rest
           else pk_isjson_go .ENDVAL arrays rest)
        else if b = 34 then pk_isjson_go .STR arrays rest
        else if b = 91 then
          (if isSpace nb || nb = 93 then pk_isjson_go .ARRAY (arrays + 1) rest
           else pk_isjson_go .START (arrays + 1) rest)
        else if ¬ isSpace b then false
        else pk_isjson_go .START arrays rest
    | .NULL1 => if nb ≠ 108 then false else pk_isjson_go .NULL2 arrays rest
    | .NULL2 => if nb ≠ 108 then false else pk_isjson_go .NULL3 arrays rest
    | .NULL3 => pk_isjson_go .ENDVAL arrays rest
    | .NUM_0 =>
        if b = 46 then pk_isjson_go .NUM_FRAC arrays rest
        else if b = 101 || b = 69 then
          (if nb = 43 || nb = 45 then
            (match rest with
              | [] => pk_isjson_go .NUM_EXP arrays []
              | _ :: rest2 => pk_isjson_go .NUM_EXP arrays rest2)
           else pk_isjson_go .NUM_EXP arrays rest)
        else false
    | .NUM_NEG =>
        if b = 48 then
          (if nb = 46 || nb = 101 || nb = 69 then pk_isjson_go .NUM_0 arrays rest
           else pk_isjson_go .ENDVAL arrays rest)
        else if isNum b then
          (if isNum nb then pk_isjson_go .NUM_INT arrays rest
           else if nb = 46 || nb = 101 || nb = 69 then pk_isjson_go .NUM_0 arrays rest
           else pk_isjson_go .ENDVAL arrays rest)
        else false
    | .NUM_INT =>
        if ¬ isNum b then false
        else if nb = 46 || nb = 101 || nb = 69 then pk_isjson_go .NUM_0 arrays rest
        else if ¬ isNum nb then pk_isjson_go .ENDVAL arrays rest
        else pk_isjson_go .NUM_INT arrays rest
    | .NUM_FRAC =>
        if ¬ isNum b then false
        else if nb = 101 || nb = 69 then pk_isjson_go .NUM_FRACE arrays rest
        else if ¬ isNum nb then pk_isjson_go .ENDVAL arrays rest
        else pk_isjson_go .NUM_FRAC arrays rest
    | .NUM_FRACE => pk_isjson_go .NUM_FRACE2 arrays rest
    | .NUM_FRACE2 =>
        if isNum b then
          (if isNum nb then pk_isjson_go .NUM_EXP arrays rest
           else pk_isjson_go .ENDVAL arrays rest)
        else if b = 43 || b = 45 then pk_isjson_go .NUM_EXP arrays rest
        else false
    | .NUM_EXP =>
        if ¬ isNum b then false
        else if ¬ isNum nb then pk_isjson_go .ENDVAL arrays rest
        else pk_isjson_go .NUM_EXP arrays rest
    | .STR =>
        if b = 92 then pk_isjson_go .STR_ESC arrays rest
        else if b = 34 then pk_isjson_go .ENDVAL arrays rest
        else if b < 32 then false
        else pk_isjson_go .STR arrays rest
    | .STR_ESC =>
        if b = 34 || b = 92 || b = 47 || b = 98 || b = 102 || b = 110 || b = 114 || b = 116 then
          pk_isjson_go .STR arrays rest
        else if b = 117 then
          (if nb ≠ 48 then false else pk_isjson_go .STR_U1 arrays rest)
        else false
    | .STR_U1 => if nb ≠ 48 then false else pk_isjson_go .STR_U2 arrays rest
    | .STR_U2 => if ¬ isHex nb then false else pk_isjson_go .STR_U3 arrays rest
    | .STR_U3 => if ¬ isHex nb then false else pk_isjson_go .STR_U4 arrays rest
    | .STR_U4 => pk_isjson_go .STR arrays rest
    | .ARRAY =>
        if b = 93 then pk_isjson_go .ENDVAL arrays rest
        else if ¬ isSpace nb && nb ≠ 93 then pk_isjson_go .START arrays rest
        else pk_isjson_go .ARRAY arrays rest
    | .ENDVAL =>
        if arrays > 0 then
          (if b = 44 then pk_isjson_go .START arrays rest
           else if b = 93 then pk_isjson_go .ENDVAL (arrays - 1) rest
           else if ¬ isSpace b then false
           else pk_isjson_go .ENDVAL arrays rest)
        else if ¬ isSpace b then false
        else pk_isjson_go .ENDVAL arrays rest

/-- `pk_isjson`: does the byte string parse as a single JSON value (the
subset the pickler emits)? -/
def pk_isjson (s : List Nat) : Bool := pk_isjson_go .START 0 s

/-- JSON escape of one string byte (the render loop of `pk_tojson`). -/
def jsonEscapeByte (b : Nat) : List Nat :=
  if b = 34 || b = 92 then [92, b]
  else if b = 8 then [92, 98]
  else if b = 12 then [92, 102]
  else if b = 10 then [92, 110]
  else if b = 13 then [92, 114]
  else if b = 9 then [92, 116]
  else if b < 32 || 128 ≤ b then [92, 117, 48, 48, toNibble (b / 16 % 16), toNibble (b % 16)]
  else [b]

/-- The bytes "null". -/
def nullBytes : List Nat := [110, 117, 108, 108]

/-- Result of `pk_tojson`: a rendered value, the circular-structure
failure (`return false`), or fuel exhaustion (an artifact of the
embedding, impossible for adequate fuel). -/
inductive PkRes where
  | out (s : List Nat)
  | circ
  | fuelout
deriving DecidableEq

/-- Result of rendering the elements of one list. -/
inductive PkItems where
  | outs (ps : List (List Nat))
  | circ
  | fuelout
deriving DecidableEq

mutual

/-- `pk_tojson`: render a value as JSON text; `li` is the stack of list
indices currently being rendered, used to detect cycles.  The fuel
argument bounds the rendering depth. -/
def pk_tojson (h : Heap) (ren : Rat → List Nat) : Nat → HV → List Nat → PkRes
  | 0, _, _ => .fuelout
  | _ + 1, .nil, _ => .out nullBytes
  | _ + 1, .num d, _ =>
      let r := numtostr ren d
      if pk_isjson r then .out r else .out nullBytes
  | _ + 1, .str s, _ => .out ([34] ++ (s.map jsonEscapeByte).flatten ++ [34])
  | fuel + 1, .list idx, li =>
      if idx ∈ li then .circ
      else
        match pk_items h ren fuel (elems h idx) (li ++ [idx]) with
        | .outs ps => .out ([91] ++ List.intercalate [44] ps ++ [93])
        | .circ => .circ
        | .fuelout => .fuelout
termination_by fuel _ _ => (fuel, 0)

/-- The element loop of `pk_tojson` over one list's element vector. -/
def pk_items (h : Heap) (ren : Rat → List Nat) : Nat → List HV → List Nat → PkItems
  | _, [], _ => .outs []
  | fuel, e :: es, li =>
      match pk_tojson h ren fuel e li with
      | .out s =>
          (match pk_items h ren fuel es li with
            | .outs ps => .outs (s :: ps)
            | .circ => .circ
            | .fuelout => .fuelout)
      | .circ => .circ
      | .fuelout => .fuelout
termination_by fuel es _ => (fuel, es.length + 1)

end

/-- The abort message of a circular JSON pickle. -/
def pickle_circ_err : String := "Cannot pickle circular structure to JSON format"

/-- `opi_pickle_json`: run the renderer; on the circular failure the
context is aborted with `pickle_circ_err` and nil (`none`) is returned.
The pair is (returned string, recorded abort message). -/
def opi_pickle_json (h : Heap) (ren : Rat → List Nat) (a : HV) :
    Option (List Nat) × Option String :=
  match pk_tojson h ren (h.length + 1) a [] with
  | .out s => (some s, none)
  | .circ => (none, some pickle_circ_err)
  | .fuelout => (none, none)

/-! ### Reachability in the list pool -/

/-- Indices reachable from a list index by repeatedly following list
elements. -/
inductive IdxReach (h : Heap) : Nat → Nat → Prop
  | refl (i : Nat) : IdxReach h i i
  | tail {i j k : Nat} : IdxReach h i j → HV.list k ∈ elems h j → IdxReach h i k

/-- Index `i` lies on a reference cycle: it is reachable from one of its
own elements. -/
def Cyc (h : Heap) (i : Nat) : Prop :=
  ∃ k, HV.list k ∈ elems h i ∧ IdxReach h k i

/-- The list indices reachable from a value. -/
def VReach (h : Heap) (v : HV) (j : Nat) : Prop :=
  ∃ i, v = .list i ∧ IdxReach h i j

/-- A value contains a reference cycle. -/
def HasCycle (h : Heap) (v : HV) : Prop :=
  ∃ j, VReach h v j ∧ Cyc h j

/-- Well-formedness: every list index reachable from the value is an
allocated pool slot. -/
def WFv (h : Heap) (v : HV) : Prop :=
  ∀ j, VReach h v j → j < h.length

/-! ## Ordering of values

Embeds `sortboth` and `opi_order` (src/src2/sink.c lines 12035-12112 and
12205-12210).  Values are modelled as trees (`SV`): a tree value is
inherently acyclic, so the circular-list abort of `sortboth` cannot
fire, and the visited-index stack `li` is dropped.  The 64-bit
bit-equality shortcut `a.u == b.u` is pool identity on strings and
lists, which a tree cannot express; when it fires in C the structural
comparison below the shortcut returns 0 as well (`sortboth_refl`), so
results agree.  On numbers bit equality is `Dbl` equality exactly. -/

/-- A runtime value as a tree: list elements carried inline. -/
inductive SV where
  | nil
  | num (d : Dbl)
  | str (s : List Nat)
  | list (xs : List SV)

/-- The `a.u == b.u` bit-equality test, as far as a tree can express it
(see the section comment). -/
def uEq (a b : SV) : Bool :=
  match a, b with
  | .nil, .nil => true
  | .num d1, .num d2 => d1 = d2
  | _, _ => false

/-- `sink_type` of a value. -/
inductive SType where
  | nil | num | str | list
deriving DecidableEq

/-- `sink_typeof`. -/
def typeofSV : SV → SType
  | .nil => .nil
  | .num _ => .num
  | .str _ => .str
  | .list _ => .list

/-- The cross-type ladder of `sortboth` (`atype != btype` branch). -/
def sortcross (ta tb : SType) : Int :=
  if ta = .nil then -1
  else if ta = .num then (if tb = .nil then 1 else -1)
  else if ta = .str then (if tb = .list then -1 else 1)
  else 1

/-- The `memcmp` over the common prefix, with the result already
normalized to -1/0/1 (the C code normalizes the sign afterwards). -/
def memcmp_b : List Nat → List Nat → Int
  | x :: xs, y :: ys => if x < y then -1 else if y < x then 1 else memcmp_b xs ys
  | _, _ => 0

/-- The string branch of `sortboth`: empty checks, common-prefix
`memcmp`, then length comparison. -/
def str_cmp (s1 s2 : List Nat) : Int :=
  if s1.length = 0 then (if s2.length = 0 then 0 else -1)
  else if s2.length = 0 then 1
  else
    let res := memcmp_b s1 s2
    if res = 0 then
      (if s1.length = s2.length then 0 else if s1.length < s2.length then -1 else 1)
    else res

mutual

/-- `sortboth`: three-way comparison of two values. -/
def sortboth (a b : SV) : Int :=
  if uEq a b then 0
  else if typeofSV a ≠ typeofSV b then sortcross (typeofSV a) (typeofSV b)
  else
    match a, b with
    | .num x, .num y =>
        if x.isnan then (if y.isnan then 0 else -1)
        else if y.isnan then 1
        else if dlt x y then -1 else 1
    | .str s1, .str s2 => str_cmp s1 s2
    | .list xs, .list ys => sortboth_items xs ys
    | _, _ => 0
termination_by (sizeOf a + sizeOf b, 0)

/-- The element loop of the list branch of `sortboth`: the `minsize`
loop followed by the size comparison, written as one recursion. -/
def sortboth_items : List SV → List SV → Int
  | [], [] => 0
  | [], _ :: _ => -1
  | _ :: _, [] => 1
  | x :: xs, y :: ys =>
      let r := sortboth x y
      if r = 0 then sortboth_items xs ys else r
termination_by xs ys => (sizeOf xs + sizeOf ys, 1)

end

/-- Operand-shape categories (`op_pcat`). -/
inductive Oppc where
  | INVALID | STR | CMDHEAD | CMDTAIL | JUMP | VJUMP | CALL | ISNATIVE
  | NATIVE | RETURNTAIL | VVVV | VVV | VV | V | EMPTY | VA | VN | VNN
  | VNNNN | VNNNNNNNN
deriving DecidableEq

/-- `op_paramcat`: operand shape of each opcode byte; bytes outside the
defined opcode set are `INVALID`. -/
def op_paramcat : Nat → Oppc
  | 0 => .EMPTY
  | 1 => .VV
  | 2 => .V
  | 3 => .V
  | 4 => .VN
  | 5 => .VN
  | 6 => .VNN
  | 7 => .VNN
  | 8 => .VNNNN
  | 9 => .VNNNN
  | 10 => .VNNNNNNNN
  | 11 => .STR
  | 12 => .VN
  | 13 => .VV
  | 14 => .VV
  | 15 => .VV
  | 16 => .VV
  | 17 => .VV
  | 18 => .VV
  | 19 => .VA
  | 20 => .VVV
  | 21 => .VVV
  | 22 => .VVV
  | 23 => .VVV
  | 24 => .VVV
  | 25 => .VVVV
  | 26 => .VVV
  | 27 => .VVVV
  | 28 => .JUMP
  | 29 => .VJUMP
  | 30 => .VJUMP
  | 31 => .CMDHEAD
  | 32 => .CMDTAIL
  | 33 => .CALL
  | 34 => .ISNATIVE
  | 35 => .NATIVE
  | 36 => .V
  | 37 => .RETURNTAIL
  | 38 => .VVVV
  | 39 => .VVV
  | 40 => .VA
  | 41 => .VA
  | 42 => .VA
  | 43 => .VA
  | 44 => .VA
  | 45 => .V
  | 46 => .VV
  | 47 => .VVV
  | 48 => .VVV
  | 49 => .VVV
  | 50 => .VVV
  | 51 => .VVV
  | 52 => .VVV
  | 53 => .VV
  | 54 => .VV
  | 55 => .VA
  | 56 => .VA
  | 57 => .VVVV
  | 58 => .VV
  | 59 => .VV
  | 60 => .VV
  | 61 => .VV
  | 62 => .V
  | 63 => .V
  | 64 => .VV
  | 65 => .VV
  | 66 => .VV
  | 67 => .VV
  | 68 => .VV
  | 69 => .VV
  | 70 => .VV
  | 71 => .VV
  | 72 => .VVV
  | 73 => .VV
  | 74 => .VV
  | 75 => .VV
  | 76 => .VV
  | 77 => .VVVV
  | 78 => .VVV
  | 79 => .VVV
  | 80 => .VVV
  | 81 => .VV
  | 82 => .VV
  | 83 => .VA
  | 84 => .VA
  | 85 => .VA
  | 86 => .VVV
  | 87 => .VVV
  | 88 => .VVV
  | 89 => .VVV
  | 90 => .VVV
  | 91 => .VVV
  | 92 => .VVV
  | 93 => .VVV
  | 94 => .VV
  | 95 => .VV
  | 96 => .VV
  | 97 => .VV
  | 98 => .V
  | 99 => .V
  | 100 => .V
  | 101 => .VVVV
  | 102 => .V
  | 103 => .VV
  | 104 => .VV
  | 105 => .VV
  | 106 => .VA
  | 107 => .VVV
  | 108 => .VVVV
  | 109 => .VVV
  | 110 => .VVV
  | 111 => .VVV
  | 112 => .VVVV
  | 113 => .VVVV
  | 114 => .VV
  | 115 => .VV
  | 116 => .VV
  | 117 => .VV
  | 118 => .VVV
  | 119 => .VV
  | 120 => .VVV
  | 121 => .VVV
  | 122 => .VV
  | 123 => .VV
  | 124 => .VV
  | 125 => .VV
  | 126 => .VVV
  | 127 => .VVV
  | 128 => .V
  | 129 => .VVV
  | 130 => .VV
  | 131 => .VV
  | 132 => .VVV
  | 133 => .VVV
  | 134 => .VVV
  | 135 => .VVV
  | 136 => .VVVV
  | 137 => .VVVV
  | 138 => .VVV
  | 139 => .VV
  | 140 => .VV
  | 141 => .VV
  | 142 => .VV
  | 143 => .VV
  | 144 => .VV
  | 145 => .VV
  | 146 => .VV
  | 147 => .VV
  | 148 => .VV
  | 149 => .VV
  | 150 => .V
  | 151 => .VV
  | 152 => .V
  | _ => .INVALID

/-- Validator state: program counter, `cmdhead` nesting level, the
previous-instruction-was-a-jump flag, the last jump target, the saved
jump targets per level (the `jumplocs[256]` array), and the two
per-byte alignment maps `op_actual` / `op_need`. -/
structure VSt where
  pc : Nat
  level : Nat
  wasjump : Bool
  jumploc : Nat
  jumplocs : List Nat
  opActual : List Nat
  opNeed : List Nat

/-- `READVAR`: read a (frame, slot) operand pair; the frame byte must
not exceed the current nesting level. -/
def readvar (ops : List Nat) (st : VSt) : Option VSt :=
  if st.pc + 2 > ops.length then none
  else
    let a := ops.getD st.pc 0
    if a > st.level then none
    else some { st with pc := st.pc + 2 }

/-- `READLOC`: read a 4-byte jump location; reject locations at or above
`0x80000000`, and require alignment `l` when the location is inside the
buffer. -/
def readloc (ops : List Nat) (l : Nat) (st : VSt) : Option VSt :=
  if st.pc + 4 > ops.length then none
  else
    let a := ops.getD st.pc 0
    let b := ops.getD (st.pc + 1) 0
    let c := ops.getD (st.pc + 2) 0
    let d := ops.getD (st.pc + 3) 0
    let j := (a + b * 2 ^ 8 + c * 2 ^ 16 + d * 2 ^ 23 * 2) % 2 ^ 32
    if j ≥ 0x80000000 then none
    else
      let need := if j < ops.length then st.opNeed.set j l else st.opNeed
      some { st with pc := st.pc + 4, jumploc := j, opNeed := need }

/-- `READDATA`: skip `s` bytes of inline data. -/
def readdata (ops : List Nat) (s : Nat) (st : VSt) : Option VSt :=
  if st.pc + s > ops.length then none else some { st with pc := st.pc + s }

/-- The loop of `READCNT`: `c` further `READVAR` operands. -/
def readvars (ops : List Nat) : Nat → VSt → Option VSt
  | 0, st => some st
  | c + 1, st =>
    match readvar ops st with
    | some st => readvars ops c st
    | none => none

/-- `READCNT`: read an argument-count byte and that many operands. -/
def readcnt (ops : List Nat) (st : VSt) : Option VSt :=
  if st.pc + 1 > ops.length then none
  else
    let c := ops.getD st.pc 0
    readvars ops c { st with pc := st.pc + 1 }

/-- `READINDEX`: read a 4-byte string/native table index. -/
def readindex (ops : List Nat) (st : VSt) : Option (VSt × Nat) :=
  if st.pc + 4 > ops.length then none
  else
    let a := ops.getD st.pc 0
    let b := ops.getD (st.pc + 1) 0
    let c := ops.getD (st.pc + 2) 0
    let d := ops.getD (st.pc + 3) 0
    let j := (a + b * 2 ^ 8 + c * 2 ^ 16 + d * 2 ^ 23 * 2) % 2 ^ 32
    some ({ st with pc := st.pc + 4 }, j)

/-- One table index check `A < 0 || A >= size` (negative means the
computed 32-bit value has its sign bit set). -/
def idx_ok (j size : Nat) : Bool := j < 0x80000000 && j < size

/-- The body of the validation loop: dispatch on the operand shape of
the opcode at `pc` (already consumed) and validate its operands.  The
opcode value itself is passed to record the `JUMP` flag afterwards. -/
def validate_op (ops : List Nat) (strSize keySize : Nat) (opc : Oppc) (st : VSt) :
    Option VSt :=
  match opc with
  | .INVALID => none
  | .STR =>
      (match readvar ops st with
        | some st =>
            (match readindex ops st with
              | some (st, j) => if idx_ok j strSize then some st else none
              | none => none)
        | none => none)
  | .CMDHEAD =>
      if ¬ st.wasjump then none
      else if st.pc + 2 > ops.length then none
      else
        let st := { st with opActual := st.opActual.set (st.pc - 1) 2 }
        if st.level > 255 then none
        else
          let st := { st with jumplocs := st.jumplocs.set st.level st.jumploc,
                              level := st.level + 1 }
          let a := ops.getD st.pc 0
          let st := { st with pc := st.pc + 2 }
          if a ≠ st.level then none else some st
  | .CMDTAIL =>
      if st.level ≤ 0 then none
      else
        let st := { st with level := st.level - 1 }
        if st.jumplocs.getD st.level 0 ≠ st.pc then none else some st
  | .JUMP => readloc ops 1 st
  | .VJUMP =>
      (match readvar ops st with
        | some st => readloc ops 1 st
        | none => none)
  | .CALL =>
      (match readvar ops st with
        | some st =>
            (match readloc ops 2 st with
              | some st => readcnt ops st
              | none => none)
        | none => none)
  | .ISNATIVE =>
      (match readvar ops st with
        | some st =>
            (match readindex ops st with
              | some (st, j) => if idx_ok j keySize then some st else none
              | none => none)
        | none => none)
  | .NATIVE =>
      (match readvar ops st with
        | some st =>
            (match readindex ops st with
              | some (st, j) =>
                  if idx_ok j keySize then readcnt ops st else none
              | none => none)
        | none => none)
  | .RETURNTAIL =>
      (match readloc ops 2 st with
        | some st =>
            (match readcnt ops st with
              | some st =>
                  if st.jumploc < ops.length - 1 then
                    (if ops.getD st.jumploc 0 ≠ 0x1F then none
                     else if ops.getD (st.jumploc + 1) 0 ≠ st.level then none
                     else some st)
                  else some st
              | none => none)
        | none => none)
  | .VVVV =>
      (match readvar ops st with
        | some st =>
            (match readvar ops st with
              | some st =>
                  (match readvar ops st with
                    | some st => readvar ops st
                    | none => none)
              | none => none)
        | none => none)
  | .VVV =>
      (match readvar ops st with
        | some st =>
            (match readvar ops st with
              | some st => readvar ops st
              | none => none)
        | none => none)
  | .VV =>
      (match readvar ops st with
        | some st => readvar ops st
        | none => none)
  | .V => readvar ops st
  | .EMPTY => some st
  | .VA =>
      (match readvar ops st with
        | some st => readcnt ops st
        | none => none)
  | .VN =>
      (match readvar ops st with
        | some st => readdata ops 1 st
        | none => none)
  | .VNN =>
      (match readvar ops st with
        | some st => readdata ops 2 st
        | none => none)
  | .VNNNN =>
      (match readvar ops st with
        | some st => readdata ops 4 st
        | none => none)
  | .VNNNNNNNN =>
      (match readvar ops st with
        | some st => readdata ops 8 st
        | none => none)

/-- The validation loop of `program_validate`.  The fuel bounds the
iterations; every iteration consumes at least the opcode byte, so
`ops.length + 1` fuel never runs out. -/
def validate_loop (ops : List Nat) (strSize keySize : Nat) : Nat → VSt → Option VSt
  | 0, _ => none
  | fuel + 1, st =>
    if st.pc < ops.length then
      let st := { st with opActual := st.opActual.set st.pc 1 }
      let opc := op_paramcat (ops.getD st.pc 0)
      let st := { st with pc := st.pc + 1 }
      match validate_op ops strSize keySize opc st with
      | some st => validate_loop ops strSize keySize fuel { st with wasjump := opc = .JUMP }
      | none => none
    else some st

/-- `program_validate`: run the validation loop from a fresh state and
check that every required alignment matches the actual alignment. -/
def program_validate (ops : List Nat) (strSize keySize : Nat) : Bool :=
  let init : VSt :=
    { pc := 0, level := 0, wasjump := false, jumploc := 0,
      jumplocs := List.replicate 256 0,
      opActual := List.replicate ops.length 0,
      opNeed := List.replicate ops.length 0 }
  match validate_loop ops strSize keySize (ops.length + 1) init with
  | none => false
  | some st =>
      decide (∀ i < ops.length,
        st.opNeed.getD i 0 = 0 ∨ st.opNeed.getD i 0 = st.opActual.getD i 0)

/-- A byte fetch of the dispatch loop; `none` is a read outside the
opcode buffer. -/
def fetch (ops : List Nat) (i : Nat) : Option Nat := ops[i]?

/-- Outcome of executing one `OP_CALL` at `pc`: the first out-of-bounds
byte read if one happens, the REPL suspension, or the decoded call. -/
inductive CallStep where
  | oobRead (i : Nat)
  | replmore
  | ok (retPc : Nat) (target : Nat) (opByte : Nat) (levelByte : Nat) (restByte : Nat)
deriving DecidableEq

/-- The byte reads of the `OP_CALL` dispatch case, in execution order:
`LOAD_abcdefg`, the argument pairs, then `pc = C - 1; LOAD_abc()` at the
call target.  Register and call-stack effects are irrelevant to which
bytes are read and are not modelled. -/
def op_call_exec (ops : List Nat) (pc : Nat) : CallStep :=
  match fetch ops (pc + 1), fetch ops (pc + 2) with
  | some _, some _ =>
    (match fetch ops (pc + 3), fetch ops (pc + 4), fetch ops (pc + 5), fetch ops (pc + 6) with
      | some c, some d, some e, some f =>
        (match fetch ops (pc + 7) with
          | some g =>
            let tgt := (c + d * 2 ^ 8 + e * 2 ^ 16 + f * 2 ^ 23 * 2) % 2 ^ 32
            if tgt = 2 ^ 32 - 1 then .replmore
            else
              (match (List.range g).findSome?
                  (fun i => if (fetch ops (pc + 8 + 2 * i)).isNone then some (pc + 8 + 2 * i)
                    else if (fetch ops (pc + 9 + 2 * i)).isNone then some (pc + 9 + 2 * i)
                    else none) with
                | some i => .oobRead i
                | none =>
                  let retPc := pc + 8 + 2 * g
                  (match fetch ops tgt with
                    | some opByte =>
                      (match fetch ops (tgt + 1) with
                        | some levelByte =>
                          (match fetch ops (tgt + 2) with
                            | some restByte => .ok retPc tgt opByte levelByte restByte
                            | none => .oobRead (tgt + 2))
                        | none => .oobRead (tgt + 1))
                    | none => .oobRead tgt))
          | none => .oobRead (pc + 7))
      | _, _, _, _ => .oobRead (pc + 3))
  | _, _ => .oobRead (pc + 1)

/-- The 8-byte program `OP_CALL tgt=0, slot=0, target=8, argcount=0`:
its call target equals the buffer length. -/
def callOobProg : List Nat := [0x21, 0, 0, 8, 0, 0, 0, 0]

/-! ## Auxiliary predicates used by the statements -/

mutual

/-- No negative-zero double occurs anywhere in the value. -/
def noNegZero : SV → Bool
  | .nil => true
  | .num d => d ≠ .negZero
  | .str _ => true
  | .list xs => noNegZeroList xs
termination_by sv => (sizeOf sv, 0)

/-- `noNegZero` on every element. -/
def noNegZeroList : List SV → Bool
  | [] => true
  | x :: xs => noNegZero x && noNegZeroList xs
termination_by xs => (sizeOf xs, 1)

end

/-- Helper: `expr_group` with a non-group left operand prepends it to the
argument list of the right operand. -/
theorem argsOf_expr_group (l r : Ex) (hl : ∀ g, l ≠ .group g) :
    argsOf (expr_group l r) = l :: argsOf r := by
  have hgrp : expr_group l r =
      .group ([l] ++ match r with | .group g0 => g0 | r => [r]) := by
    cases l
    case group g => exact absurd rfl (hl g)
    all_goals rfl
  rw [hgrp]
  cases r <;> rfl

/-- Helper: `expr_paren` never yields a group node. -/
theorem expr_paren_ne_group (l : Ex) : ∀ g, expr_paren l ≠ .group g := by
  cases l <;> simp [expr_paren]

/-- Claim C6: combining infix `|` with a call right operand yields that
call with the left operand (wrapped by `expr_paren`) prepended as the
first argument, so `x | f(y)` is `f(x, y)`; a bare-name right operand
becomes a one-argument call of that name on the left operand; any other
right operand is the parse error "Invalid pipe". -/
theorem pipe_infix_spec :
    (∀ left cmd params, ∃ ps,
        parser_infix' .pipe left (.call cmd params) = .ok (.call cmd ps) ∧
        argsOf ps = expr_paren left :: argsOf params) ∧
    (∀ left ns,
        parser_infix' .pipe left (.names ns) = .ok (.call (.names ns) (expr_paren left)) ∧
        argsOf (expr_paren left) = [expr_paren left]) ∧
    (∀ left right, (∀ cmd params, right ≠ .call cmd params) → (∀ ns, right ≠ .names ns) →
        parser_infix' .pipe left right = .error "Invalid pipe") := by
  refine ⟨?_, ?_, ?_⟩
  · intro left cmd params
    refine ⟨expr_infix' .comma (expr_paren left) params, rfl, ?_⟩
    have hng := expr_paren_ne_group left
    have : expr_infix' .comma (expr_paren left) params =
        expr_group (expr_paren left) params := by
      cases h : expr_paren left <;> cases params <;> simp [expr_infix']
    rw [this]
    exact argsOf_expr_group _ _ hng
  · intro left ns
    refine ⟨rfl, ?_⟩
    cases h : expr_paren left with
    | group g => exact absurd h (expr_paren_ne_group left g)
    | _ => simp [argsOf]
  · intro left right hc hn
    cases right <;> simp [parser_infix']
    · exact absurd rfl (hn _)
    · exact absurd rfl (hc _ _)

/-- Claim C5: the numeric literal value computed by `numpart_calc` equals
`sign * (intPart + frac / base ^ fracLen) * E ^ (esign * eval)` with
exponent base `E = 10` for decimal literals and `2` otherwise.  The
lexer keeps `frac = 0` while no fractional digit has been consumed,
whence the `flen = 0` hypothesis. -/
theorem numpart_calc_spec (info : numpart_info)
    (hbase : info.base = 2 ∨ info.base = 8 ∨ info.base = 10 ∨ info.base = 16)
    (hfrac : info.flen = 0 → info.frac = 0) :
    numpart_calc info =
      (info.sign : Rat) * (info.val + info.frac / (info.base : Rat) ^ info.flen) *
        (if info.base = 10 then (10 : Rat) else 2) ^ (info.esign * (info.eval : Int)) := by
  have hb : (info.base : Rat) ≠ 0 := by
    rcases hbase with h | h | h | h <;> rw [h] <;> norm_num
  have hd : (info.base : Rat) ^ info.flen ≠ 0 := pow_ne_zero _ hb
  simp only [numpart_calc]
  rcases Nat.eq_zero_or_pos info.eval with he | he
  · rcases Nat.eq_zero_or_pos info.flen with hf | hf
    · simp [he, hf, hfrac hf]
    · have hne : ¬ (info.eval > 0) := by omega
      rw [if_neg hne, if_neg hne, if_pos hf, he]
      simp only [Nat.cast_zero, mul_zero, zpow_zero, mul_one]
      field_simp
  · rcases Nat.eq_zero_or_pos info.flen with hf | hf
    · have hne : ¬ (info.flen > 0) := by omega
      rw [if_pos he, if_pos he, if_neg hne, hfrac hf, hf]
      generalize (if info.base = 10 then (10 : Rat) else 2) ^ (info.esign * (info.eval : Int))
        = Epow
      simp
      ring
    · rw [if_pos he, if_pos he, if_pos hf]
      generalize (if info.base = 10 then (10 : Rat) else 2) ^ (info.esign * (info.eval : Int))
        = Epow
      field_simp
      ring

/-- Witness for C5 at the literal `-0xC.8p2`. -/
theorem numpart_calc_spec_witness :
    numpart_calc ⟨-1, 12, 16, 8, 1, 1, 2⟩ =
      ((-1 : Int) : Rat) * (12 + 8 / ((16 : Nat) : Rat) ^ 1) *
        (if (16 : Nat) = 10 then (10 : Rat) else 2) ^ ((1 : Int) * ((2 : Nat) : Int)) :=
  numpart_calc_spec ⟨-1, 12, 16, 8, 1, 1, 2⟩ (by norm_num)
    (fun h => absurd h (by norm_num))

/-- Claim C8: a set-at store whose adjusted index is at or beyond the
list length extends the list with nils to length `adjusted + 1` and
stores the value at the adjusted index; earlier elements are unchanged. -/
theorem op_setat_extends (ls : List HV) (i : Int) (v : HV)
    (hge : (ls.length : Int) ≤ (if i < 0 then i + (ls.length : Int) else i)) :
    op_setat ls i v =
      ls ++ List.replicate ((if i < 0 then i + (ls.length : Int) else i).toNat - ls.length) .nil
         ++ [v] := by
  have ha0 : 0 ≤ (if i < 0 then i + (ls.length : Int) else i) := le_trans (by positivity) hge
  set a : Int := if i < 0 then i + (ls.length : Int) else i with ha
  have hlen : ls.length ≤ a.toNat := by omega
  simp only [op_setat, opi_list_pushnils, ← ha]
  have hnotge : ¬ ((ls.length : Int) ≥ a + 1) := by omega
  rw [if_neg hnotge]
  set k : Nat := (a + 1 - (ls.length : Int)).toNat with hk
  have hkpos : 0 < k := by omega
  have hlen2 : (ls ++ List.replicate k HV.nil).length = a.toNat + 1 := by
    simp only [List.length_append, List.length_replicate]
    omega
  rw [if_pos ⟨ha0, by rw [hlen2]; omega⟩]
  rw [List.set_append, if_neg (by omega)]
  rw [List.set_eq_take_cons_drop _ (by simp only [List.length_replicate]; omega)]
  rw [List.take_replicate, List.drop_replicate]
  have h1 : min (a.toNat - ls.length) k = a.toNat - ls.length := by omega
  have h2 : k - (a.toNat - ls.length + 1) = 0 := by omega
  rw [h1, h2]
  simp only [List.replicate_zero, List.append_assoc]

/-- Witness for C8: setting index 4 of a 2-element list. -/
theorem op_setat_extends_witness :
    op_setat [HV.num (.fin 1), HV.nil] 4 (.str [65]) =
      [HV.num (.fin 1), HV.nil] ++
        List.replicate ((if (4 : Int) < 0 then 4 + (2 : Int) else 4).toNat - 2) .nil ++
        [.str [65]] :=
  op_setat_extends [HV.num (.fin 1), HV.nil] 4 (.str [65]) (by norm_num)

/-- Claim C10: a set-at store whose adjusted index is still negative is a
silent no-op: no abort message, the pool (hence the list) unchanged. -/
theorem op_setat_noop (h : Heap) (li : Nat) (d : Dbl) (v : HV)
    (hneg : dtoint d + ((elems h li).length : Int) < 0) :
    op_setat_h h (.list li) (.num d) v = .ok h ∧
      op_setat (elems h li) (dtoint d) v = elems h li := by
  have hi0 : dtoint d < 0 := by
    have : (0 : Int) ≤ ((elems h li).length : Int) := by positivity
    omega
  have hsetat : op_setat (elems h li) (dtoint d) v = elems h li := by
    simp only [op_setat, opi_list_pushnils]
    rw [if_pos hi0]
    rw [if_pos (by omega : ((elems h li).length : Int) ≥ dtoint d + ((elems h li).length : Int) + 1)]
    rw [if_neg (by omega)]
  refine ⟨?_, hsetat⟩
  simp only [op_setat_h]
  rw [hsetat]
  congr 1
  apply List.ext_getElem?
  intro n
  rcases eq_or_ne n li with rfl | hne
  · rcases Nat.lt_or_ge n h.length with hlt | hge
    · rw [List.getElem?_set_self hlt]
      simp only [elems]
      rw [List.getD_eq_getElem?_getD, List.getElem?_eq_getElem hlt]
      simp
    · rw [List.set_eq_of_length_le hge]
  · rw [List.getElem?_set_ne (by omega)]

/-- Witness for C10: index -5 into a 2-element list. -/
theorem op_setat_noop_witness :
    op_setat_h [[HV.nil, HV.nil]] (.list 0) (.num (.fin (-5))) .nil = .ok [[HV.nil, HV.nil]] ∧
      op_setat (elems [[HV.nil, HV.nil]] 0) (dtoint (.fin (-5))) .nil =
        elems [[HV.nil, HV.nil]] 0 :=
  op_setat_noop [[HV.nil, HV.nil]] 0 (.fin (-5)) .nil (by norm_num [elems, dtoint, qtrunc])

/-- Claim C9: pickling a NaN or infinite number to JSON succeeds without
error and produces the four-byte string "null": the C rendering of such
a number is not valid JSON text, so `pk_tojson` falls back to null. -/
theorem pickle_json_nonfinite (h : Heap) (ren : Rat → List Nat) (neg : Bool) :
    opi_pickle_json h ren (.num .nan) = (some nullBytes, none) ∧
    opi_pickle_json h ren (.num (.inf neg)) = (some nullBytes, none) ∧
    nullBytes = [110, 117, 108, 108] := by
  have hnan : pk_tojson h ren (h.length + 1) (.num .nan) [] = .out nullBytes := by
    simp [pk_tojson, numtostr]
    decide
  have hinf : pk_tojson h ren (h.length + 1) (.num (.inf neg)) [] = .out nullBytes := by
    cases neg <;>
      · simp [pk_tojson, numtostr]
        decide
  refine ⟨?_, ?_, rfl⟩ <;> simp [opi_pickle_json, hnan, hinf]

/-- Witness for C6: a pipe into a nil right operand is rejected. -/
theorem pipe_infix_spec_witness :
    parser_infix' .pipe (.names [[120]]) .nil = .error "Invalid pipe" :=
  pipe_infix_spec.2.2 (.names [[120]]) .nil
    (fun _ _ h => Ex.noConfusion h) (fun _ h => Ex.noConfusion h)

/-- Helper: `ffz` returns the lowest clear bit. -/
theorem ffz_spec (w : Nat) :
    Nat.testBit w (ffz w) = false ∧ ∀ j, j < ffz w → Nat.testBit w j = true := by
  induction w using Nat.strong_induction_on with
  | _ w ih =>
    rw [ffz]
    by_cases h : w % 2 = 0
    · rw [if_pos h]
      constructor
      · simp [Nat.testBit_zero]
        omega
      · omega
    · rw [if_neg h]
      have hw : 0 < w := by omega
      have hlt : w / 2 < w := Nat.div_lt_self hw (by norm_num)
      obtain ⟨h1, h2⟩ := ih (w / 2) hlt
      constructor
      · rw [Nat.add_comm 1 (ffz (w / 2)), Nat.testBit_succ]
        exact h1
      · intro j hj
        match j with
        | 0 => simp [Nat.testBit_zero]; omega
        | j + 1 =>
          rw [Nat.testBit_succ]
          exact h2 j (by omega)

/-- Helper: a 64-bit word with no clear bit below 64 is all ones. -/
theorem ffz_lt_64 (w : Nat) (hlt : w < 2 ^ 64) (hne : w ≠ 2 ^ 64 - 1) : ffz w < 64 := by
  by_contra hge
  apply hne
  apply Nat.eq_of_testBit_eq
  intro i
  rcases Nat.lt_or_ge i 64 with hi | hi
  · rw [(ffz_spec w).2 i (by omega), Nat.testBit_two_pow_sub_one]
    simp [hi]
  · have h1 : w < 2 ^ i := lt_of_lt_of_le hlt (Nat.pow_le_pow_right (by norm_num) hi)
    rw [Nat.testBit_lt_two_pow h1, Nat.testBit_two_pow_sub_one]
    simp
    omega

/-- Helper: bit `j` of a word-list bitmap with a leading word. -/
theorem bitGet_cons (w : Nat) (ws : List Nat) (j : Nat) :
    bitGet (w :: ws) j = if j < 64 then Nat.testBit w j else bitGet ws (j - 64) := by
  unfold bitGet
  rcases Nat.lt_or_ge j 64 with hj | hj
  · rw [if_pos hj]
    have h0 : j / 64 = 0 := by omega
    have h1 : j % 64 = j := by omega
    rw [h0, h1, List.getD_cons_zero]
  · rw [if_neg (by omega)]
    have h0 : j / 64 = (j - 64) / 64 + 1 := by omega
    have h1 : j % 64 = (j - 64) % 64 := by omega
    rw [h0, h1, List.getD_cons_succ]

/-- Helper: full characterization of `bmp_alloc` on a bitmap whose bit
count matches its word count. -/
theorem bmp_alloc_spec (words : List Nat) (hw : ∀ w ∈ words, w < 2 ^ 64) :
    (match bmp_alloc words ((64 * words.length : Nat) : Int) with
      | some (i, ws2) => bitGet words i = false ∧ (∀ j, j < i → bitGet words j = true) ∧
          i < 64 * words.length ∧ ∀ j, bitGet ws2 j = (bitGet words j || decide (j = i))
      | none => ∀ j, j < 64 * words.length → bitGet words j = true) := by
  induction words with
  | nil =>
    simp [bmp_alloc]
  | cons w ws ih =>
    have hw0 : w < 2 ^ 64 := hw w (List.mem_cons_self w ws)
    have hws : ∀ w2 ∈ ws, w2 < 2 ^ 64 := fun w2 h2 => hw w2 (List.mem_cons_of_mem w h2)
    have hcnt : ¬ ((64 * (w :: ws).length : Nat) : Int) ≤ 0 := by
      simp only [List.length_cons]
      omega
    by_cases hful : w = 2 ^ 64 - 1
    · have hrec : ((64 * (w :: ws).length : Nat) : Int) - 64 = ((64 * ws.length : Nat) : Int) := by
        simp only [List.length_cons]
        push_cast
        ring
      rw [bmp_alloc, if_neg hcnt, if_pos hful, hrec]
      specialize ih hws
      rcases hall : bmp_alloc ws ((64 * ws.length : Nat) : Int) with _ | ⟨i, ws2⟩
      · rw [hall] at ih
        simp only [hall]
        intro j hj
        rw [bitGet_cons]
        rcases Nat.lt_or_ge j 64 with hj2 | hj2
        · rw [if_pos hj2, hful, Nat.testBit_two_pow_sub_one]
          simp [hj2]
        · rw [if_neg (by omega)]
          exact ih (j - 64) (by simp only [List.length_cons] at hj; omega)
      · rw [hall] at ih
        simp only [hall]
        obtain ⟨ih1, ih2, ih3, ih4⟩ := ih
        refine ⟨?_, ?_, ?_, ?_⟩
        · rw [bitGet_cons, if_neg (by omega)]
          have : 64 + i - 64 = i := by omega
          rw [this]
          exact ih1
        · intro j hj
          rw [bitGet_cons]
          rcases Nat.lt_or_ge j 64 with hj2 | hj2
          · rw [if_pos hj2, hful, Nat.testBit_two_pow_sub_one]
            simp [hj2]
          · rw [if_neg (by omega)]
            exact ih2 (j - 64) (by omega)
        · simp only [List.length_cons]
          omega
        · intro j
          rw [bitGet_cons, bitGet_cons]
          rcases Nat.lt_or_ge j 64 with hj2 | hj2
          · rw [if_pos hj2, if_pos hj2]
            have : ¬ (j = 64 + i) := by omega
            simp [this]
          · rw [if_neg (by omega), if_neg (by omega)]
            rw [ih4 (j - 64)]
            have hdec : decide (j - 64 = i) = decide (j = 64 + i) := by
              rw [decide_eq_decide]
              omega
            rw [hdec]
    · rw [bmp_alloc, if_neg hcnt, if_neg hful]
      have hffz := ffz_spec w
      have hf64 : ffz w < 64 := ffz_lt_64 w hw0 hful
      refine ⟨?_, ?_, ?_, ?_⟩
      · rw [bitGet_cons, if_pos hf64]
        exact hffz.1
      · intro j hj
        rw [bitGet_cons, if_pos (by omega)]
        exact hffz.2 j hj
      · simp only [List.length_cons]
        omega
      · intro j
        rw [bitGet_cons, bitGet_cons]
        rcases Nat.lt_or_ge j 64 with hj2 | hj2
        · rw [if_pos hj2, if_pos hj2]
          rw [Nat.testBit_or, Nat.testBit_two_pow]
          have hdec : decide (ffz w = j) = decide (j = ffz w) := by
            rw [decide_eq_decide]
            omega
          rw [hdec]
        · rw [if_neg (by omega), if_neg (by omega)]
          have : ¬ (j = ffz w) := by omega
          simp [this]

/-- Claim C7: slot allocation returns the lowest-numbered free slot and
marks it allocated; with every bit set the pool doubles, the returned
index equals the old capacity (first slot of the new half, the only
allocated bit there), and all previously allocated indices keep
referring to the same objects. -/
theorem pool_alloc_spec {α : Type} :
    (∀ (words : List Nat) (i : Nat) (ws2 : List Nat), (∀ w ∈ words, w < 2 ^ 64) →
        bmp_alloc words ((64 * words.length : Nat) : Int) = some (i, ws2) →
        bitGet words i = false ∧ (∀ j, j < i → bitGet words j = true) ∧
          i < 64 * words.length ∧ ∀ j, bitGet ws2 j = (bitGet words j || decide (j = i))) ∧
    (∀ (p : Pool α) (pad : α),
        (∀ w ∈ p.aloc, w = 2 ^ 64 - 1) →
        p.size = 64 * p.aloc.length →
        0 < p.size →
        p.size < 0x3FFFFFFF →
        p.tbl.length = p.size →
        ∃ p2, bmp_reserve p pad = some (p.size, p2) ∧
          p2.size = 2 * p.size ∧
          (∀ i, i < p.size → p2.tbl[i]? = p.tbl[i]?) ∧
          bitGet p2.aloc p.size = true ∧
          (∀ j, j < p.size → bitGet p2.aloc j = true) ∧
          (∀ j, p.size < j → j < 2 * p.size → bitGet p2.aloc j = false)) := by
  constructor
  · intro words i ws2 hw heq
    have := bmp_alloc_spec words hw
    rw [heq] at this
    exact this
  · intro p pad hful hsz hpos hcap htbl
    have hlen : p.aloc.length = p.size / 64 := by omega
    have hnone : bmp_alloc p.aloc ((p.size : Nat) : Int) = none := by
      have hw : ∀ w ∈ p.aloc, w < 2 ^ 64 := by
        intro w hmem
        rw [hful w hmem]
        omega
      have := bmp_alloc_spec p.aloc hw
      rw [← hsz] at this
      rcases hall : bmp_alloc p.aloc ((p.size : Nat) : Int) with _ | ⟨i, ws2⟩
      · rfl
      · rw [hall] at this
        obtain ⟨h1, _, h3, _⟩ := this
        exfalso
        have hbit : bitGet p.aloc i = true := by
          unfold bitGet
          have hidx : i / 64 < p.aloc.length := by omega
          have hmem : p.aloc.getD (i / 64) 0 ∈ p.aloc := by
            rw [List.getD_eq_getElem?_getD, List.getElem?_eq_getElem hidx]
            exact List.getElem_mem _
          rw [hful _ hmem, Nat.testBit_two_pow_sub_one]
          simp
          omega
        rw [h1] at hbit
        exact Bool.false_ne_true hbit
    refine ⟨⟨p.tbl ++ List.replicate (p.size * 2 - p.tbl.length) pad, p.size * 2,
        setWordBit0 (p.aloc ++ List.replicate (p.size / 64) 0) (p.size * 2 / 128),
        p.ref ++ List.replicate (p.size / 64) 0⟩, ?_, ?_, ?_, ?_, ?_, ?_⟩
    · simp only [bmp_reserve, hnone, if_neg (by omega : ¬ p.size ≥ 0x3FFFFFFF)]
      have h2 : p.size * 2 / 2 = p.size := by omega
      rw [h2]
    · exact Nat.mul_comm p.size 2
    · intro i hi
      simp only
      rw [List.getElem?_append_left (by omega)]
    · simp only
      unfold setWordBit0 bitGet
      have hidx : p.size * 2 / 128 = p.aloc.length := by omega
      have hdiv : p.size / 64 = p.aloc.length := by omega
      have hmod : p.size % 64 = 0 := by omega
      rw [hidx, hdiv, hmod]
      rw [List.getD_eq_getElem?_getD]
      rw [List.getElem?_set_self (by simp [List.length_append, List.length_replicate]; omega)]
      rw [List.getD_eq_getElem?_getD]
      rw [List.getElem?_append_right (by omega)]
      simp only [List.getElem?_replicate]
      rw [if_pos (by omega)]
      simp only [Option.getD_some]
      decide
    · intro j hj
      simp only
      unfold setWordBit0 bitGet
      have hidx : p.size * 2 / 128 = p.aloc.length := by omega
      have hdiv : j / 64 < p.aloc.length := by omega
      rw [hidx]
      rw [List.getD_eq_getElem?_getD]
      rw [List.getElem?_set_ne (by omega)]
      rw [List.getElem?_append_left hdiv]
      rw [List.getElem?_eq_getElem hdiv]
      simp only [Option.getD_some]
      rw [hful _ (List.getElem_mem _), Nat.testBit_two_pow_sub_one]
      simp only [decide_eq_true_eq]
      omega
    · intro j hj1 hj2
      simp only
      unfold setWordBit0 bitGet
      have hidx : p.size * 2 / 128 = p.aloc.length := by omega
      rw [hidx]
      rw [List.getD_eq_getElem?_getD]
      rcases eq_or_ne (j / 64) p.aloc.length with hdiv | hdiv
      · rw [hdiv]
        rw [List.getElem?_set_self (by simp [List.length_append, List.length_replicate]; omega)]
        simp only [Option.getD_some]
        rw [List.getD_eq_getElem?_getD]
        rw [List.getElem?_append_right (by omega)]
        simp only [List.getElem?_replicate]
        rw [if_pos (by omega)]
        simp only [Option.getD_some]
        rw [Nat.zero_or]
        rw [show (1 : Nat) = 2 ^ 0 from rfl, Nat.testBit_two_pow]
        simp only [decide_eq_false_iff_not]
        omega
      · rw [List.getElem?_set_ne (by omega)]
        have hge : p.aloc.length ≤ j / 64 := by omega
        rw [List.getElem?_append_right hge]
        have hlt : j / 64 - p.aloc.length < p.size / 64 := by omega
        simp only [List.getElem?_replicate]
        rw [if_pos hlt]
        simp

/-- Witness for C7: a full one-word pool of 64 slots doubles and hands
out slot 64. -/
theorem pool_alloc_spec_witness :
    ∃ p2, bmp_reserve (Pool.mk (List.replicate 64 (0 : Nat)) 64 [2 ^ 64 - 1] [0]) 0 =
        some (64, p2) ∧
      p2.size = 2 * 64 ∧
      (∀ i, i < 64 →
        p2.tbl[i]? = (Pool.mk (List.replicate 64 (0 : Nat)) 64 [2 ^ 64 - 1] [0]).tbl[i]?) ∧
      bitGet p2.aloc 64 = true ∧
      (∀ j, j < 64 → bitGet p2.aloc j = true) ∧
      (∀ j, 64 < j → j < 2 * 64 → bitGet p2.aloc j = false) :=
  pool_alloc_spec.2 (Pool.mk (List.replicate 64 (0 : Nat)) 64 [2 ^ 64 - 1] [0]) 0
    (by intro w hw; simp at hw; omega) (by simp) (by norm_num) (by norm_num) (by simp)

/-- Helper: the budget bookkeeping never touches `pc`, `log`, or the
configured `timeout`, and a `true` (TIMEOUT) outcome leaves the budget
reset to the configured timeout. -/
theorem run_tick_frame (st : RunSt) :
    (run_tick st).1.pc = st.pc ∧ (run_tick st).1.log = st.log ∧
    (run_tick st).1.timeout = st.timeout ∧
    ((run_tick st).2 = true → (run_tick st).1.timeoutLeft = st.timeout) := by
  simp only [run_tick, context_gc_budget, context_gcleft_set]
  repeat' split
  all_goals simp_all

/-- Helper: characterization of one `run` loop: it never exhausts its
fuel, the program counter only advances and stays within the program,
the executed instructions are exactly `pc, pc+1, ...` up to the final
counter, `.done` means the whole program ran, and a timeout leaves the
budget reset with the configuration unchanged. -/
theorem run_loop_spec (n : Nat) : ∀ (fuel : Nat) (st : RunSt),
    n - st.pc ≤ fuel → st.pc ≤ n →
    (run_loop n fuel st).2 ≠ .more ∧
    st.pc ≤ (run_loop n fuel st).1.pc ∧
    (run_loop n fuel st).1.pc ≤ n ∧
    (run_loop n fuel st).1.log
      = st.log ++ List.range' st.pc ((run_loop n fuel st).1.pc - st.pc) ∧
    ((run_loop n fuel st).2 = .done → (run_loop n fuel st).1.pc = n) ∧
    ((run_loop n fuel st).2 = .timeout →
      (run_loop n fuel st).1.timeoutLeft = (run_loop n fuel st).1.timeout ∧
      (run_loop n fuel st).1.timeout = st.timeout) := by
  intro fuel
  induction fuel with
  | zero =>
    intro st hfuel hpc
    have hge : ¬ st.pc < n := by omega
    rw [run_loop, if_neg hge]
    simp
    omega
  | succ fuel ih =>
    intro st hfuel hpc
    by_cases hlt : st.pc < n
    · rw [run_loop, if_pos hlt]
      simp only
      obtain ⟨hp, hl, ht, hres⟩ :=
        run_tick_frame { st with pc := st.pc + 1, log := st.log ++ [st.pc] }
      rw [show ({ st with pc := st.pc + 1, log := st.log ++ [st.pc] } : RunSt).pc
          = st.pc + 1 from rfl] at hp
      rw [show ({ st with pc := st.pc + 1, log := st.log ++ [st.pc] } : RunSt).log
          = st.log ++ [st.pc] from rfl] at hl
      rw [show ({ st with pc := st.pc + 1, log := st.log ++ [st.pc] } : RunSt).timeout
          = st.timeout from rfl] at ht hres
      by_cases htick : (run_tick { st with pc := st.pc + 1, log := st.log ++ [st.pc] }).2
      · rw [if_pos htick]
        simp only
        refine ⟨by simp, by omega, by omega, ?_, by simp, ?_⟩
        · rw [hl, hp, show st.pc + 1 - st.pc = 1 from by omega, List.range'_one]
        · intro _
          exact ⟨by rw [hres htick, ht], ht⟩
      · rw [if_neg (by simp [htick])]
        have hrec := ih (run_tick { st with pc := st.pc + 1, log := st.log ++ [st.pc] }).1
          (by omega) (by omega)
        obtain ⟨r1, r2, r3, r4, r5, r6⟩ := hrec
        refine ⟨r1, by omega, r3, ?_, r5, ?_⟩
        · rw [r4, hl, hp]
          have hk :
              (run_loop n fuel
                (run_tick { st with pc := st.pc + 1, log := st.log ++ [st.pc] }).1).1.pc - st.pc
              = ((run_loop n fuel
                  (run_tick { st with pc := st.pc + 1, log := st.log ++ [st.pc] }).1).1.pc
                    - (st.pc + 1)) + 1 := by omega
          rw [hk, List.range'_succ]
          simp
        · intro htmo
          obtain ⟨s1, s2⟩ := r6 htmo
          exact ⟨s1, by rw [s2, ht]⟩
    · rw [run_loop, if_neg hlt]
      simp
      omega

/-- Claim C2: each executed opcode decrements the tick budget by one;
when the budget reaches zero the run returns TIMEOUT with the budget
reset to the configured timeout and the program counter preserved (one
past the executed opcode), so a subsequent run resumes at exactly the
next unexecuted instruction; a garbage collection additionally deducts
`SINK_GC_TICKS = 100` ticks from the budget, stopping at zero. -/
theorem tick_budget_spec :
    (∀ st : RunSt, st.timeout > 0 → st.gcLevel = .nogc → 1 < st.timeoutLeft →
        run_tick st = ({ st with timeoutLeft := st.timeoutLeft - 1 }, false)) ∧
    (∀ st : RunSt, st.timeout > 0 → st.gcLevel = .nogc → st.timeoutLeft = 1 →
        run_tick st = ({ st with timeoutLeft := st.timeout }, true)) ∧
    (∀ st : RunSt, (run_tick st).1.pc = st.pc) ∧
    (SINK_GC_TICKS = 100 ∧
      ∀ st : RunSt, (context_gc_budget st).timeoutLeft = max 0 (st.timeoutLeft - 100)) ∧
    (∀ (n fuel : Nat) (st : RunSt), n - st.pc ≤ fuel → st.pc ≤ n →
        (run_loop n fuel st).2 ≠ .more ∧
        (run_loop n fuel st).1.log
          = st.log ++ List.range' st.pc ((run_loop n fuel st).1.pc - st.pc) ∧
        ((run_loop n fuel st).2 = .done → (run_loop n fuel st).1.pc = n)) ∧
    (∀ (n : Nat) (st : RunSt), st.timeout > 0 → 0 < st.timeoutLeft → st.pc ≤ n →
        (context_run n st).2 = .timeout →
        (context_run n ((context_run n st).1)).1.log
          = st.log
            ++ List.range' st.pc ((context_run n st).1.pc - st.pc)
            ++ List.range' (context_run n st).1.pc
                 ((context_run n ((context_run n st).1)).1.pc
                   - (context_run n st).1.pc)) := by
  refine ⟨?_, ?_, ?_, ⟨rfl, ?_⟩, ?_, ?_⟩
  · intro st h1 h2 h3
    simp [run_tick, h2, h1, show ¬ (st.timeoutLeft - 1 ≤ 0) from by omega]
  · intro st h1 h2 h3
    simp [run_tick, h2, h1, show st.timeoutLeft - 1 ≤ 0 from by omega]
  · intro st
    exact (run_tick_frame st).1
  · intro st
    simp only [context_gc_budget, context_gcleft_set, SINK_GC_TICKS]
    split <;> dsimp only at * <;> omega
  · intro n fuel st hfuel hpc
    obtain ⟨r1, _, _, r4, r5, _⟩ := run_loop_spec n fuel st hfuel hpc
    exact ⟨r1, r4, r5⟩
  · intro n st h1 h2 hpc hto
    have hentry : ¬ (st.timeout > 0 ∧ st.timeoutLeft ≤ 0) := by omega
    have hc1 : context_run n st = run_loop n n st := by
      rw [context_run, if_neg hentry]
    obtain ⟨_, q2, q3, q4, _, q6⟩ := run_loop_spec n n st (by omega) hpc
    rw [hc1] at hto
    obtain ⟨s1, s2⟩ := q6 hto
    have hentry2 : ¬ ((run_loop n n st).1.timeout > 0 ∧ (run_loop n n st).1.timeoutLeft ≤ 0) := by
      rw [s1, s2]
      omega
    have hc2 : context_run n ((run_loop n n st).1) = run_loop n n ((run_loop n n st).1) := by
      rw [context_run, if_neg hentry2]
    obtain ⟨_, _, _, w4, _, _⟩ := run_loop_spec n n ((run_loop n n st).1) (by omega) q3
    rw [hc1, hc2, w4, q4]

/-- Witness for C2: a tick at budget 3 leaves budget 2; a tick at budget
1 returns TIMEOUT with the budget reset to the configured 5. -/
theorem tick_budget_spec_witness :
    run_tick ⟨0, .nogc, 0, 5, 3, []⟩ = (⟨0, .nogc, 0, 5, 2, []⟩, false) ∧
    run_tick ⟨7, .nogc, 0, 5, 1, []⟩ = (⟨7, .nogc, 0, 5, 5, []⟩, true) :=
  ⟨tick_budget_spec.1 ⟨0, .nogc, 0, 5, 3, []⟩ (by norm_num) rfl (by norm_num),
   tick_budget_spec.2.1 ⟨7, .nogc, 0, 5, 1, []⟩ (by norm_num) rfl rfl⟩

/-- Claim C1 exhibit: the 8-byte program whose single `OP_CALL` targets
offset 8 (the buffer length) passes `program_validate` — the validator
never rejects a call target at or past the end of the buffer, it only
skips the alignment requirement — yet executing that `OP_CALL` from
PC=0 reads byte 8, outside the opcode buffer, while decoding the
expected `cmdhead` at the call target. -/
theorem validate_unsound :
    program_validate callOobProg 0 0 = true ∧
    op_call_exec callOobProg 0 = .oobRead 8 ∧
    callOobProg.length = 8 ∧
    callOobProg.getD 0 0 = 0x21 := by
  refine ⟨by decide, by decide, rfl, rfl⟩

/-- Helper: reachability is transitive. -/
theorem IdxReach.trans {h : Heap} {i j k : Nat} (h1 : IdxReach h i j) (h2 : IdxReach h j k) :
    IdxReach h i k := by
  induction h2 with
  | refl => exact h1
  | tail _ hmem ih => exact .tail ih hmem

/-- Helper: a reachability path starts with a first edge (or is trivial). -/
theorem IdxReach.head_cases {h : Heap} {i j : Nat} (hr : IdxReach h i j) :
    i = j ∨ ∃ k, HV.list k ∈ elems h i ∧ IdxReach h k j := by
  induction hr with
  | refl => exact Or.inl rfl
  | tail _ hmem ih =>
    rename_i i2 j2 _
    rcases ih with rfl | ⟨k0, hk0, hr0⟩
    · exact Or.inr ⟨j2, hmem, .refl j2⟩
    · exact Or.inr ⟨k0, hk0, hr0.tail hmem⟩

/-- Helper: a duplicate-free list of naturals below `n` has at most `n`
entries. -/
theorem nodup_bounded_length (li : List Nat) (n : Nat) (h1 : li.Nodup)
    (h2 : ∀ x ∈ li, x < n) : li.length ≤ n := by
  have hsub : li.toFinset ⊆ Finset.range n := by
    intro x hx
    rw [List.mem_toFinset] at hx
    rw [Finset.mem_range]
    exact h2 x hx
  have hcard := Finset.card_le_card hsub
  rw [List.toFinset_card_of_nodup h1, Finset.card_range] at hcard
  exact hcard

/-- Helper: every list index reachable from an element of list `idx` is
reachable from the value `.list idx`. -/
theorem vreach_of_elem {h : Heap} {idx : Nat} {e : HV} (he : e ∈ elems h idx) {j : Nat}
    (hr : VReach h e j) : VReach h (.list idx) j := by
  obtain ⟨i0, rfl, hr0⟩ := hr
  exact ⟨idx, rfl, IdxReach.trans (IdxReach.tail (.refl idx) he) hr0⟩

/-- Helper: with adequate fuel (stack depth is bounded by the distinct
valid indices on it), the renderer never runs out of fuel. -/
theorem pk_tojson_no_fuelout (h : Heap) (ren : Rat → List Nat) : ∀ fuel : Nat,
    (∀ (v : HV) (li : List Nat), WFv h v → li.Nodup → (∀ x ∈ li, x < h.length) →
      h.length + 1 ≤ fuel + li.length → pk_tojson h ren fuel v li ≠ .fuelout) ∧
    (∀ (es : List HV) (li : List Nat), (∀ e ∈ es, WFv h e) → li.Nodup →
      (∀ x ∈ li, x < h.length) →
      h.length + 1 ≤ fuel + li.length → pk_items h ren fuel es li ≠ .fuelout) := by
  intro fuel
  induction fuel with
  | zero =>
    constructor
    · intro v li hwf hnd hbd hfl
      have := nodup_bounded_length li h.length hnd hbd
      omega
    · intro es li hwf hnd hbd hfl
      have := nodup_bounded_length li h.length hnd hbd
      omega
  | succ fuel ih =>
    have hmain : ∀ (v : HV) (li : List Nat), WFv h v → li.Nodup →
        (∀ x ∈ li, x < h.length) → h.length + 1 ≤ (fuel + 1) + li.length →
        pk_tojson h ren (fuel + 1) v li ≠ .fuelout := by
      intro v li hwf hnd hbd hfl
      match v with
      | .nil => simp [pk_tojson]
      | .num d =>
        simp only [pk_tojson]
        split <;> simp
      | .str s => simp [pk_tojson]
      | .list idx =>
        simp only [pk_tojson]
        by_cases hmem : idx ∈ li
        · simp [hmem]
        · simp only [hmem, if_false, ite_false, if_neg hmem]
          have hidx : idx < h.length := hwf idx ⟨idx, rfl, .refl idx⟩
          have hitems := ih.2 (elems h idx) (li ++ [idx])
            (fun e he => fun j hj => hwf j (vreach_of_elem he hj))
            (by simp [List.nodup_append, hmem, hnd])
            (by
              intro x hx
              rw [List.mem_append, List.mem_singleton] at hx
              rcases hx with hx | rfl
              · exact hbd x hx
              · exact hidx)
            (by simp only [List.length_append, List.length_singleton]; omega)
          split
          · simp
          · simp
          · simp_all
    exact ⟨hmain, by
      intro es li hwf hnd hbd hfl
      induction es with
      | nil => simp [pk_items]
      | cons e es ihes =>
        simp only [pk_items]
        have he := hmain e li (hwf e (List.mem_cons_self e es)) hnd hbd
          (by omega)
        split
        · rename_i s hs
          have hes := ihes (fun e2 he2 => hwf e2 (List.mem_cons_of_mem e he2))
          split
          · simp
          · simp
          · simp_all
        · simp
        · simp_all⟩

/-- Helper: on an acyclic value the renderer succeeds (never reports a
cycle and never runs out of fuel). -/
theorem pk_tojson_acyclic (h : Heap) (ren : Rat → List Nat) : ∀ fuel : Nat,
    (∀ (v : HV) (li : List Nat), WFv h v → (∀ x ∈ li, ¬ VReach h v x) → ¬ HasCycle h v →
      li.Nodup → (∀ x ∈ li, x < h.length) → h.length + 1 ≤ fuel + li.length →
      ∃ s, pk_tojson h ren fuel v li = .out s) ∧
    (∀ (es : List HV) (li : List Nat),
      (∀ e ∈ es, WFv h e ∧ (∀ x ∈ li, ¬ VReach h e x) ∧ ¬ HasCycle h e) →
      li.Nodup → (∀ x ∈ li, x < h.length) → h.length + 1 ≤ fuel + li.length →
      ∃ ps, pk_items h ren fuel es li = .outs ps) := by
  intro fuel
  induction fuel with
  | zero =>
    constructor
    · intro v li _ _ _ hnd hbd hfl
      have := nodup_bounded_length li h.length hnd hbd
      omega
    · intro es li _ hnd hbd hfl
      match es with
      | [] => exact ⟨[], by simp [pk_items]⟩
      | _ :: _ =>
        have := nodup_bounded_length li h.length hnd hbd
        omega
  | succ fuel ih =>
    have hmain : ∀ (v : HV) (li : List Nat), WFv h v → (∀ x ∈ li, ¬ VReach h v x) →
        ¬ HasCycle h v → li.Nodup → (∀ x ∈ li, x < h.length) →
        h.length + 1 ≤ (fuel + 1) + li.length →
        ∃ s, pk_tojson h ren (fuel + 1) v li = .out s := by
      intro v li hwf hli hcyc hnd hbd hfl
      cases v with
      | nil => exact ⟨nullBytes, by simp [pk_tojson]⟩
      | num d =>
        refine ⟨if pk_isjson (numtostr ren d) then numtostr ren d else nullBytes, ?_⟩
        simp only [pk_tojson]
        split <;> simp_all
      | str s => exact ⟨[34] ++ (s.map jsonEscapeByte).flatten ++ [34], by simp [pk_tojson]⟩
      | list idx =>
        have hvidx : VReach h (.list idx) idx := ⟨idx, rfl, .refl idx⟩
        have hmem : idx ∉ li := fun hin => hli idx hin hvidx
        have hidx : idx < h.length := hwf idx hvidx
        obtain ⟨ps, hps⟩ := ih.2 (elems h idx) (li ++ [idx])
          (by
            intro e he
            refine ⟨fun j hj => hwf j (vreach_of_elem he hj), ?_, ?_⟩
            · intro x hx hre
              rw [List.mem_append, List.mem_singleton] at hx
              rcases hx with hx | heq
              · exact hli x hx (vreach_of_elem he hre)
              · obtain ⟨i0, he0, hr0⟩ := hre
                rw [heq] at hr0
                exact hcyc ⟨idx, hvidx, ⟨i0, he0 ▸ he, hr0⟩⟩
            · intro ⟨j, hrj, hcj⟩
              exact hcyc ⟨j, vreach_of_elem he hrj, hcj⟩)
          (by simp [List.nodup_append, hmem, hnd])
          (by
            intro x hx
            rw [List.mem_append, List.mem_singleton] at hx
            rcases hx with hx | rfl
            · exact hbd x hx
            · exact hidx)
          (by simp only [List.length_append, List.length_singleton]; omega)
        refine ⟨[91] ++ List.intercalate [44] ps ++ [93], ?_⟩
        simp only [pk_tojson, if_neg hmem, hps]
    exact ⟨hmain, by
      intro es li hwf hnd hbd hfl
      induction es with
      | nil => exact ⟨[], by simp [pk_items]⟩
      | cons e es ihes =>
        obtain ⟨h1, h2, h3⟩ := hwf e (List.mem_cons_self e es)
        obtain ⟨s, hs⟩ := hmain e li h1 h2 h3 hnd hbd hfl
        obtain ⟨ps, hps⟩ := ihes (fun e2 he2 => hwf e2 (List.mem_cons_of_mem e he2))
        exact ⟨s :: ps, by simp only [pk_items, hs, hps]⟩⟩

/-- Helper: a successful rendering implies the value contains no
reference cycle. -/
theorem pk_tojson_out_acyclic (h : Heap) (ren : Rat → List Nat) : ∀ fuel : Nat,
    (∀ (v : HV) (li : List Nat) (s : List Nat),
      pk_tojson h ren fuel v li = .out s → ¬ HasCycle h v) ∧
    (∀ (es : List HV) (li : List Nat) (ps : List (List Nat)),
      pk_items h ren fuel es li = .outs ps → ∀ e ∈ es, ¬ HasCycle h e) := by
  intro fuel
  induction fuel with
  | zero =>
    constructor
    · intro v li s hout
      simp [pk_tojson] at hout
    · intro es li ps houts e he
      match es, he with
      | e :: es, _ =>
        simp [pk_items, pk_tojson] at houts
  | succ fuel ih =>
    have hmain : ∀ (v : HV) (li : List Nat) (s : List Nat),
        pk_tojson h ren (fuel + 1) v li = .out s → ¬ HasCycle h v := by
      intro v li s hout hcyc
      obtain ⟨j, hrj, hcj⟩ := hcyc
      obtain ⟨idx, rfl, hr⟩ := hrj
      rw [pk_tojson] at hout
      by_cases hmem : idx ∈ li
      · simp [hmem] at hout
      · simp only [if_neg hmem] at hout
        rcases hit : pk_items h ren fuel (elems h idx) (li ++ [idx]) with ps | _ | _ <;>
          rw [hit] at hout
        · have helems := ih.2 (elems h idx) (li ++ [idx]) ps hit
          rcases hr.head_cases with heq | ⟨k0, hk0, hr0⟩
          · have hcj2 := hcj
            obtain ⟨k, hkmem, hkr⟩ := hcj2
            refine helems (.list k) (by rw [heq]; exact hkmem) ?_
            exact ⟨j, ⟨k, rfl, hkr⟩, hcj⟩
          · exact helems (.list k0) hk0 ⟨j, ⟨k0, rfl, hr0⟩, hcj⟩
        · simp at hout
        · simp at hout
    exact ⟨hmain, by
      intro es li ps houts
      induction es generalizing ps with
      | nil => intro e he; cases he
      | cons e2 es ihes =>
        intro e3 he3
        rw [pk_items] at houts
        rcases hfst : pk_tojson h ren (fuel + 1) e2 li with s | _ | _ <;>
          rw [hfst] at houts
        · rcases hrest : pk_items h ren (fuel + 1) es li with ps2 | _ | _ <;>
            rw [hrest] at houts
          · rcases he3 with _ | he3
            · exact hmain e2 li s hfst
            · exact ihes ps2 hrest e3 (by assumption)
          · simp at houts
          · simp at houts
        · simp at houts
        · simp at houts⟩

/-- Claim C3: JSON pickling of a value containing a reference cycle
fails, aborting the context with "Cannot pickle circular structure to
JSON format" and returning nil; on every acyclic value it succeeds and
returns a string. -/
theorem pickle_json_cycles (h : Heap) (ren : Rat → List Nat) (v : HV) (hwf : WFv h v) :
    (HasCycle h v → opi_pickle_json h ren v = (none, some pickle_circ_err)) ∧
    (¬ HasCycle h v → ∃ s, opi_pickle_json h ren v = (some s, none)) := by
  constructor
  · intro hcyc
    have hnf := (pk_tojson_no_fuelout h ren (h.length + 1)).1 v [] hwf (by simp) (by simp)
      (by simp)
    have hno := (pk_tojson_out_acyclic h ren (h.length + 1)).1 v []
    simp only [opi_pickle_json]
    rcases hres : pk_tojson h ren (h.length + 1) v [] with s | _ | _
    · exact absurd hcyc (hno s hres)
    · rfl
    · exact absurd hres hnf
  · intro hcyc
    obtain ⟨s, hs⟩ := (pk_tojson_acyclic h ren (h.length + 1)).1 v [] hwf (by simp) hcyc
      (by simp) (by simp) (by simp)
    exact ⟨s, by simp only [opi_pickle_json, hs]⟩

/-- Witness for C3: the one-slot pool whose list 0 contains itself. -/
theorem pickle_json_cycles_witness :
    opi_pickle_json [[HV.list 0]] (fun _ => [48]) (.list 0)
      = (none, some pickle_circ_err) := by
  have hreach : ∀ j, IdxReach [[HV.list 0]] 0 j → j = 0 := by
    intro j hj
    induction hj with
    | refl => rfl
    | tail hr hmem ih =>
      rename_i j2 k2
      subst ih
      simp [elems] at hmem
      omega
  have hwf : WFv [[HV.list 0]] (.list 0) := by
    intro j ⟨i0, hi0, hr⟩
    cases hi0
    rw [hreach j hr]
    norm_num
  refine (pickle_json_cycles [[HV.list 0]] (fun _ => [48]) (.list 0) hwf).1 ?_
  exact ⟨0, ⟨0, rfl, .refl 0⟩, ⟨0, by simp [elems], .refl 0⟩⟩

end Sink
